import Mathlib

/-!
Verification of the Discovery & Live-Session Synchronization Engine
(`src/server.js`) of the Antigravity-Shit-Chat repository.

The JavaScript source is shallowly embedded: pure helpers become Lean
functions, the stateful `discover` / `updateSnapshots` loops become explicit
state-passing functions whose remote-protocol interactions (HTTP target
listing, CDP `Runtime.evaluate` probes, WebSocket connects) are supplied as
oracle inputs describing each call's outcome, exactly following the
control flow of the source.
-/

namespace ShitChat

/-! ### hashString (src/server.js lines 23-31)

```js
function hashString(str) {
    let hash = 0;
    for (let i = 0; i < str.length; i++) {
        const char = str.charCodeAt(i);
        hash = ((hash << 5) - hash) + char;
        hash = hash & hash;
    }
    return hash.toString(36);
}
```

JavaScript `<<` and `&` coerce to signed 32-bit integers (`ToInt32`); the
intermediate `(hash << 5) - hash + char` is exact in double precision and
`hash & hash` wraps it back to int32.  `toString(36)` renders the signed
value in lowercase base 36, with a leading `-` for negative values.  Every
int32 magnitude fits in 7 base-36 digits (36^7 > 2^32), so the digit list
is computed with a fixed 7-digit expansion and leading zeros dropped, which
agrees with `Number.prototype.toString` on this range. -/

/-- `ToInt32`: wrap an integer into `[-2^31, 2^31)`. -/
def toInt32 (n : Int) : Int := (n + 2 ^ 31) % 2 ^ 32 - 2 ^ 31

/-- One loop iteration of `hashString`:
`hash = ((hash << 5) - hash) + char; hash = hash & hash`. -/
def hashStep (h : Int) (c : Nat) : Int := toInt32 (toInt32 (h * 32) - h + c)

/-- The accumulator after the loop, starting from `hash = 0`. -/
def hashAcc (l : List Nat) : Int := l.foldl hashStep 0

/-- Base-36 digit characters `0-9a-z`, as produced by `toString(36)`. -/
def digitChar36 (d : Nat) : Char :=
  if d < 10 then Char.ofNat (48 + d) else Char.ofNat (87 + d)

/-- Base-36 digit list of a natural number below `36^7`
(fixed 7-digit expansion, leading zeros dropped, `0` renders as "0"). -/
def base36Digits (n : Nat) : List Char :=
  let ds := [n / 36 ^ 6 % 36, n / 36 ^ 5 % 36, n / 36 ^ 4 % 36,
             n / 36 ^ 3 % 36, n / 36 ^ 2 % 36, n / 36 % 36, n % 36]
  let tail := ds.dropWhile (· == 0)
  (if tail = [] then [0] else tail).map digitChar36

/-- `Number.prototype.toString(36)` on an integer (negative values get a
leading minus sign). -/
def intToBase36 (n : Int) : String :=
  if n < 0 then String.mk ('-' :: base36Digits n.natAbs)
  else String.mk (base36Digits n.toNat)

/-- `hashString` over a list of UTF-16 code units. -/
def hashString (l : List Nat) : String := intToBase36 (hashAcc l)

/-- `hashString` applied to a (BMP) string's characters. -/
def strHash (s : String) : String := hashString (s.toList.map Char.toNat)

/-! ### Arithmetic facts about `hashString` -/

/-- The accumulator update, viewed in `ZMod (2^32)`: `h ↦ 31*h + c`. -/
def stepZ (h : ZMod (2 ^ 32)) (c : Nat) : ZMod (2 ^ 32) := 31 * h + (c : ZMod (2 ^ 32))

theorem intCast_emod_pow32 (a : Int) :
    ((a % 4294967296 : Int) : ZMod (2 ^ 32)) = (a : ZMod (2 ^ 32)) := by
  rw [show (4294967296 : Int) = ((2 ^ 32 : Nat) : Int) by norm_num]
  exact ZMod.intCast_mod a (2 ^ 32)

theorem toInt32_cast (n : Int) : ((toInt32 n : Int) : ZMod (2 ^ 32)) = (n : ZMod (2 ^ 32)) := by
  unfold toInt32
  push_cast
  rw [intCast_emod_pow32]
  push_cast
  ring

theorem hashStep_cast (h : Int) (c : Nat) :
    ((hashStep h c : Int) : ZMod (2 ^ 32)) = stepZ ((h : Int) : ZMod (2 ^ 32)) c := by
  unfold hashStep stepZ
  rw [toInt32_cast]
  push_cast
  rw [toInt32_cast]
  push_cast
  ring

theorem foldl_hashStep_cast (l : List Nat) (h : Int) :
    ((l.foldl hashStep h : Int) : ZMod (2 ^ 32)) = l.foldl stepZ ((h : Int) : ZMod (2 ^ 32)) := by
  induction l generalizing h with
  | nil => rfl
  | cons c t ih => simp only [List.foldl_cons, ih, hashStep_cast]

theorem isUnit_31 : IsUnit (31 : ZMod (2 ^ 32)) := by
  have h := (ZMod.isUnit_iff_coprime 31 (2 ^ 32)).mpr (by decide)
  simpa using h

theorem stepZ_inj (c : Nat) {a b : ZMod (2 ^ 32)} (h : stepZ a c = stepZ b c) : a = b := by
  unfold stepZ at h
  exact isUnit_31.mul_left_cancel (by exact add_right_cancel h)

theorem foldl_stepZ_inj (l : List Nat) {a b : ZMod (2 ^ 32)}
    (h : l.foldl stepZ a = l.foldl stepZ b) : a = b := by
  induction l generalizing a b with
  | nil => exact h
  | cons c t ih => exact stepZ_inj c (ih (by simpa using h))

theorem toInt32_range (n : Int) : -2 ^ 31 ≤ toInt32 n ∧ toInt32 n < 2 ^ 31 := by
  unfold toInt32
  have h1 : 0 ≤ (n + 2 ^ 31) % 2 ^ 32 := Int.emod_nonneg _ (by norm_num)
  have h2 : (n + 2 ^ 31) % 2 ^ 32 < 2 ^ 32 := Int.emod_lt_of_pos _ (by norm_num)
  omega

theorem hashAcc_range (l : List Nat) : -2 ^ 31 ≤ hashAcc l ∧ hashAcc l < 2 ^ 31 := by
  unfold hashAcc
  have main : ∀ (t : List Nat) (h : Int), -2 ^ 31 ≤ h → h < 2 ^ 31 →
      -2 ^ 31 ≤ t.foldl hashStep h ∧ t.foldl hashStep h < 2 ^ 31 := by
    intro t
    induction t with
    | nil => intro h h1 h2; exact ⟨h1, h2⟩
    | cons c t ih =>
      intro h _ _
      simpa only [List.foldl_cons] using
        ih (hashStep h c) (toInt32_range _).1 (toInt32_range _).2
  exact main l 0 (by norm_num) (by norm_num)

theorem intCast_zmod_inj_range {a b : Int} (ha1 : -2 ^ 31 ≤ a) (ha2 : a < 2 ^ 31)
    (hb1 : -2 ^ 31 ≤ b) (hb2 : b < 2 ^ 31)
    (h : (a : ZMod (2 ^ 32)) = (b : ZMod (2 ^ 32))) : a = b := by
  rw [ZMod.intCast_eq_intCast_iff] at h
  obtain ⟨k, hk⟩ := h.dvd
  have hn : ((2 ^ 32 : Nat) : Int) = 4294967296 := by norm_num
  rw [hn] at hk
  omega

theorem natCast_zmod_ne {c c' : Nat} (hc : c < 2 ^ 32) (hc' : c' < 2 ^ 32) (hne : c ≠ c') :
    (c : ZMod (2 ^ 32)) ≠ (c' : ZMod (2 ^ 32)) := by
  intro h
  apply hne
  have hv := congrArg ZMod.val h
  rwa [ZMod.val_cast_of_lt hc, ZMod.val_cast_of_lt hc'] at hv

theorem hashAcc_single_char (p s : List Nat) {c c' : Nat}
    (hc : c < 2 ^ 32) (hc' : c' < 2 ^ 32) (hne : c ≠ c') :
    hashAcc (p ++ c :: s) ≠ hashAcc (p ++ c' :: s) := by
  intro h
  unfold hashAcc at h
  rw [List.foldl_append, List.foldl_append, List.foldl_cons, List.foldl_cons] at h
  have hcast := congrArg (fun x : Int => ((x : Int) : ZMod (2 ^ 32))) h
  simp only [foldl_hashStep_cast] at hcast
  have h2 := foldl_stepZ_inj s hcast
  rw [hashStep_cast, hashStep_cast] at h2
  unfold stepZ at h2
  exact natCast_zmod_ne hc hc' hne (add_left_cancel h2)

/-! ### Injectivity of the base-36 rendering on the int32 range -/

theorem digitChar36_inj :
    ∀ d1 : Nat, d1 < 36 → ∀ d2 : Nat, d2 < 36 → digitChar36 d1 = digitChar36 d2 → d1 = d2 := by
  decide

theorem digitChar36_ne_dash : ∀ d : Nat, d < 36 → digitChar36 d ≠ '-' := by
  decide

theorem map_digitChar36_inj : ∀ (l1 l2 : List Nat), (∀ x ∈ l1, x < 36) → (∀ x ∈ l2, x < 36) →
    l1.map digitChar36 = l2.map digitChar36 → l1 = l2 := by
  intro l1
  induction l1 with
  | nil => intro l2 _ _ h; cases l2 <;> simp_all
  | cons a t ih =>
    intro l2 h1 h2 h
    cases l2 with
    | nil => simp at h
    | cons b u =>
      simp only [List.map_cons, List.cons.injEq] at h
      have ha : a = b := digitChar36_inj a (h1 a (by simp)) b (h2 b (by simp)) h.1
      have ht : t = u := ih u (fun x hx => h1 x (by simp [hx])) (fun x hx => h2 x (by simp [hx])) h.2
      rw [ha, ht]

theorem dropWhile_head_false {α : Type} (p : α → Bool) :
    ∀ (l : List α) (x : α) (xs : List α), l.dropWhile p = x :: xs → p x = false := by
  intro l
  induction l with
  | nil => intro x xs h; simp [List.dropWhile] at h
  | cons a t ih =>
    intro x xs h
    by_cases hpa : p a
    · rw [List.dropWhile_cons, if_pos hpa] at h
      exact ih x xs h
    · rw [List.dropWhile_cons, if_neg hpa] at h
      cases h
      simpa using hpa

theorem takeWhile_zero_replicate (l : List Nat) :
    l.takeWhile (· == 0) = List.replicate (l.takeWhile (· == 0)).length 0 := by
  rw [List.eq_replicate_iff]
  exact ⟨rfl, fun b hb => by simpa using List.mem_takeWhile_imp hb⟩

theorem dropWhile_zero_cancel {l1 l2 : List Nat} (hlen : l1.length = l2.length)
    (h : l1.dropWhile (· == 0) = l2.dropWhile (· == 0)) : l1 = l2 := by
  have e1 := List.takeWhile_append_dropWhile (p := (· == 0)) (l := l1)
  have e2 := List.takeWhile_append_dropWhile (p := (· == 0)) (l := l2)
  have hl1 := congrArg List.length e1
  have hl2 := congrArg List.length e2
  simp only [List.length_append] at hl1 hl2
  have hdl := congrArg List.length h
  have htl : (l1.takeWhile (· == 0)).length = (l2.takeWhile (· == 0)).length := by omega
  calc l1 = l1.takeWhile (· == 0) ++ l1.dropWhile (· == 0) := e1.symm
    _ = List.replicate (l1.takeWhile (· == 0)).length 0 ++ l2.dropWhile (· == 0) := by
        rw [← takeWhile_zero_replicate, h]
    _ = List.replicate (l2.takeWhile (· == 0)).length 0 ++ l2.dropWhile (· == 0) := by rw [htl]
    _ = l2.takeWhile (· == 0) ++ l2.dropWhile (· == 0) := by rw [← takeWhile_zero_replicate]
    _ = l2 := e2

/-- Digit list used by `base36Digits` (before dropping leading zeros). -/
def digits7 (n : Nat) : List Nat :=
  [n / 36 ^ 6 % 36, n / 36 ^ 5 % 36, n / 36 ^ 4 % 36,
   n / 36 ^ 3 % 36, n / 36 ^ 2 % 36, n / 36 % 36, n % 36]

theorem digits7_lt (n : Nat) : ∀ x ∈ digits7 n, x < 36 := by
  intro x hx
  simp only [digits7, List.mem_cons, List.not_mem_nil, or_false] at hx
  rcases hx with h | h | h | h | h | h | h <;> (subst h; exact Nat.mod_lt _ (by norm_num))

theorem digits7_recompose (n : Nat) (hn : n < 36 ^ 7) :
    n = n / 36 ^ 6 % 36 * 36 ^ 6 + n / 36 ^ 5 % 36 * 36 ^ 5 + n / 36 ^ 4 % 36 * 36 ^ 4
      + n / 36 ^ 3 % 36 * 36 ^ 3 + n / 36 ^ 2 % 36 * 36 ^ 2 + n / 36 % 36 * 36 + n % 36 := by
  omega

theorem base36Digits_eq (n : Nat) :
    base36Digits n =
      ((if (digits7 n).dropWhile (· == 0) = [] then [0]
        else (digits7 n).dropWhile (· == 0)).map digitChar36) := rfl

theorem dropWhile_zero_nil_all {l : List Nat} (h : l.dropWhile (· == 0) = []) :
    ∀ x ∈ l, x = 0 := by
  intro x hx
  have := List.dropWhile_eq_nil_iff.mp h x hx
  simpa using this

theorem mem_dropWhile_mem {α : Type} (p : α → Bool) :
    ∀ (l : List α) (x : α), x ∈ l.dropWhile p → x ∈ l := by
  intro l
  induction l with
  | nil => intro x hx; simp [List.dropWhile] at hx
  | cons a t ih =>
    intro x hx
    rw [List.dropWhile_cons] at hx
    by_cases hpa : p a
    · rw [if_pos hpa] at hx; exact List.mem_cons_of_mem a (ih x hx)
    · rw [if_neg hpa] at hx; exact hx

theorem base36Digits_inj {a b : Nat} (ha : a < 36 ^ 7) (hb : b < 36 ^ 7)
    (h : base36Digits a = base36Digits b) : a = b := by
  rw [base36Digits_eq, base36Digits_eq] at h
  have hZa : ∀ x ∈ (digits7 a).dropWhile (· == 0), x < 36 :=
    fun x hx => digits7_lt a x (mem_dropWhile_mem _ _ x hx)
  have hZb : ∀ x ∈ (digits7 b).dropWhile (· == 0), x < 36 :=
    fun x hx => digits7_lt b x (mem_dropWhile_mem _ _ x hx)
  by_cases hea : (digits7 a).dropWhile (· == 0) = [] <;>
    by_cases heb : (digits7 b).dropWhile (· == 0) = []
  · -- both digit lists are all zeros: a = 0 = b
    have haz := dropWhile_zero_nil_all hea
    have hbz := dropWhile_zero_nil_all heb
    have ha0 : a = 0 := by
      have := digits7_recompose a ha
      simp only [digits7, List.mem_cons] at haz
      rw [haz (a / 36 ^ 6 % 36) (by tauto), haz (a / 36 ^ 5 % 36) (by tauto),
          haz (a / 36 ^ 4 % 36) (by tauto), haz (a / 36 ^ 3 % 36) (by tauto),
          haz (a / 36 ^ 2 % 36) (by tauto), haz (a / 36 % 36) (by tauto),
          haz (a % 36) (by tauto)] at this
      simpa using this
    have hb0 : b = 0 := by
      have := digits7_recompose b hb
      simp only [digits7, List.mem_cons] at hbz
      rw [hbz (b / 36 ^ 6 % 36) (by tauto), hbz (b / 36 ^ 5 % 36) (by tauto),
          hbz (b / 36 ^ 4 % 36) (by tauto), hbz (b / 36 ^ 3 % 36) (by tauto),
          hbz (b / 36 ^ 2 % 36) (by tauto), hbz (b / 36 % 36) (by tauto),
          hbz (b % 36) (by tauto)] at this
      simpa using this
    rw [ha0, hb0]
  · -- [0] versus a list whose head is a nonzero digit: impossible
    rw [if_pos hea, if_neg heb] at h
    have := map_digitChar36_inj [0] _ (by simp) hZb h
    obtain ⟨x, xs, hx⟩ : ∃ x xs, (digits7 b).dropWhile (· == 0) = x :: xs := by
      cases hxx : (digits7 b).dropWhile (· == 0) with
      | nil => exact absurd hxx heb
      | cons x xs => exact ⟨x, xs, rfl⟩
    rw [hx] at this
    have hx0 := dropWhile_head_false _ _ _ _ hx
    simp only [List.cons.injEq] at this
    rw [← this.1] at hx0
    simp at hx0
  · rw [if_neg hea, if_pos heb] at h
    have := map_digitChar36_inj _ [0] hZa (by simp) h
    obtain ⟨x, xs, hx⟩ : ∃ x xs, (digits7 a).dropWhile (· == 0) = x :: xs := by
      cases hxx : (digits7 a).dropWhile (· == 0) with
      | nil => exact absurd hxx hea
      | cons x xs => exact ⟨x, xs, rfl⟩
    rw [hx] at this
    have hx0 := dropWhile_head_false _ _ _ _ hx
    simp only [List.cons.injEq] at this
    rw [this.1] at hx0
    simp at hx0
  · rw [if_neg hea, if_neg heb] at h
    have hdw := map_digitChar36_inj _ _ hZa hZb h
    have hdig : digits7 a = digits7 b :=
      dropWhile_zero_cancel (by simp [digits7]) hdw
    simp only [digits7, List.cons.injEq, and_true] at hdig
    obtain ⟨h6, h5, h4, h3, h2, h1, h0⟩ := hdig
    rw [digits7_recompose a ha, digits7_recompose b hb, h6, h5, h4, h3, h2, h1, h0]

theorem base36Digits_head (n : Nat) :
    ∃ d rest, d < 36 ∧ base36Digits n = digitChar36 d :: rest := by
  rw [base36Digits_eq]
  by_cases he : (digits7 n).dropWhile (· == 0) = []
  · exact ⟨0, [], by norm_num, by rw [if_pos he]; rfl⟩
  · obtain ⟨x, xs, hx⟩ : ∃ x xs, (digits7 n).dropWhile (· == 0) = x :: xs := by
      cases hxx : (digits7 n).dropWhile (· == 0) with
      | nil => exact absurd hxx he
      | cons x xs => exact ⟨x, xs, rfl⟩
    refine ⟨x, xs.map digitChar36, ?_, by rw [if_neg he, hx]; rfl⟩
    exact digits7_lt n x (mem_dropWhile_mem _ _ x (hx ▸ List.mem_cons_self x xs))

theorem intToBase36_inj {a b : Int} (ha1 : -2 ^ 31 ≤ a) (ha2 : a < 2 ^ 31)
    (hb1 : -2 ^ 31 ≤ b) (hb2 : b < 2 ^ 31)
    (h : intToBase36 a = intToBase36 b) : a = b := by
  have h36 : (36 : Nat) ^ 7 = 78364164096 := by norm_num
  have hra : a.natAbs < 36 ^ 7 := by rw [h36]; omega
  have hrb : b.natAbs < 36 ^ 7 := by rw [h36]; omega
  unfold intToBase36 at h
  by_cases hna : a < 0 <;> by_cases hnb : b < 0
  · rw [if_pos hna, if_pos hnb] at h
    have hdata : '-' :: base36Digits a.natAbs = '-' :: base36Digits b.natAbs :=
      congrArg String.data h
    have htail := (List.cons.injEq _ _ _ _).mp hdata
    have := base36Digits_inj hra hrb htail.2
    omega
  · rw [if_pos hna, if_neg hnb] at h
    have hdata : '-' :: base36Digits a.natAbs = base36Digits b.toNat :=
      congrArg String.data h
    obtain ⟨d, rest, hd, hds⟩ := base36Digits_head b.toNat
    rw [hds] at hdata
    have := (List.cons.injEq _ _ _ _).mp hdata
    exact absurd this.1.symm (digitChar36_ne_dash d hd)
  · rw [if_neg hna, if_pos hnb] at h
    have hdata : base36Digits a.toNat = '-' :: base36Digits b.natAbs :=
      congrArg String.data h
    obtain ⟨d, rest, hd, hds⟩ := base36Digits_head a.toNat
    rw [hds] at hdata
    have := (List.cons.injEq _ _ _ _).mp hdata
    exact absurd this.1 (digitChar36_ne_dash d hd)
  · rw [if_neg hna, if_neg hnb] at h
    have hta : a.toNat < 36 ^ 7 := by omega
    have htb : b.toNat < 36 ^ 7 := by omega
    have hdata : base36Digits a.toNat = base36Digits b.toNat := congrArg String.data h
    have := base36Digits_inj hta htb hdata
    omega

theorem hashString_inj_core {a b : List Nat} (h : hashString a = hashString b) :
    hashAcc a = hashAcc b := by
  unfold hashString at h
  exact intToBase36_inj (hashAcc_range a).1 (hashAcc_range a).2
    (hashAcc_range b).1 (hashAcc_range b).2 h

/-- C7: `hashString` is a deterministic pure function (repeated computation on
the same code-unit sequence yields the identical result), and replacing any
single character (a UTF-16 code unit, hence below 2^16) by a different
character yields a different hash value, the accumulator arithmetic being
32-bit wrapping. -/
theorem hashString_deterministic_and_single_char_sensitive
    (p s : List Nat) (c c' : Nat) (hc : c < 65536) (hc' : c' < 65536) (hne : c ≠ c') :
    (∀ l : List Nat, hashString l = hashString l) ∧
    hashString (p ++ c :: s) ≠ hashString (p ++ c' :: s) := by
  refine ⟨fun _ => rfl, fun h => ?_⟩
  exact hashAcc_single_char p s (lt_trans hc (by norm_num)) (lt_trans hc' (by norm_num))
    hne (hashString_inj_core h)

/-- Witness for C7: concrete instance at the code-unit lists of "a" and "b". -/
theorem hashString_deterministic_and_single_char_sensitive_witness :
    (∀ l : List Nat, hashString l = hashString l) ∧
    hashString ([] ++ 97 :: []) ≠ hashString ([] ++ 98 :: []) :=
  hashString_deterministic_and_single_char_sensitive [] [] 97 98
    (by norm_num) (by norm_num) (by norm_num)

/-! ### isGoodTitle (src/server.js lines 96-111, in the metadata probe script)

```js
const normalizeText = (value) => (value || '').replace(/\s+/g, ' ').trim();
const isGoodTitle = (value) => {
    const text = normalizeText(value);
    if (text.length < 3 || text.length > 80) return false;
    const bad = [/^new chat/i, /^new conversation/i, /^past chats?/i,
                 /^view all/i, /^plan/i, /^local$/i, /^run everything/i, /^success$/i];
    return !bad.some((re) => re.test(text));
};
```

Strings are modelled as `List Char`.  `\s` and `trim` use the ECMAScript
whitespace set.  Each `/^pat/i` regex on an ASCII pattern is a
case-insensitive prefix test; `/^local$/i` and `/^success$/i` are anchored on
both sides, hence whole-string tests; `/^past chats?/i` tests the prefix with
or without the optional `s`. -/

/-- ECMAScript `\s` / `trim` whitespace characters. -/
def jsWhitespace : List Char :=
  ['\t', '\n', '\x0b', '\x0c', '\r', ' ', ' ', ' ', ' ', ' ',
   ' ', ' ', ' ', ' ', ' ', ' ', ' ', ' ',
   ' ', ' ', ' ', ' ', ' ', '　', '﻿']

def isWS (c : Char) : Bool := jsWhitespace.contains c

/-- `value.replace(/\s+/g, ' ')`: each maximal whitespace run becomes one
space.  The boolean flag records whether the previous character was part of a
whitespace run, making the recursion structural. -/
def collapseWSAux : Bool → List Char → List Char
  | _, [] => []
  | prevWS, c :: rest =>
    if isWS c then (if prevWS then [] else [' ']) ++ collapseWSAux true rest
    else c :: collapseWSAux false rest

def collapseWS (l : List Char) : List Char := collapseWSAux false l

/-- `String.prototype.trim`. -/
def trimWS (l : List Char) : List Char :=
  ((l.dropWhile isWS).reverse.dropWhile isWS).reverse

/-- `normalizeText`. -/
def normalizeText (l : List Char) : List Char := trimWS (collapseWS l)

/-- ASCII case-insensitive comparison support for the `/i` regexes. -/
def lowerList (l : List Char) : List Char := l.map Char.toLower

def startsWithL : List Char → List Char → Bool
  | _, [] => true
  | [], _ :: _ => false
  | c :: cs, p :: ps => c == p && startsWithL cs ps

/-- `bad.some((re) => re.test(text))`, in the order the source lists the
regexes. -/
def matchesBoilerplate (text : List Char) : Bool :=
  let t := lowerList text
  startsWithL t "new chat".toList ||
  startsWithL t "new conversation".toList ||
  (startsWithL t "past chats".toList || startsWithL t "past chat".toList) ||
  startsWithL t "view all".toList ||
  startsWithL t "plan".toList ||
  t == "local".toList ||
  startsWithL t "run everything".toList ||
  t == "success".toList

def isGoodTitle (l : List Char) : Bool :=
  let text := normalizeText l
  if text.length < 3 || text.length > 80 then false
  else !matchesBoilerplate text

/-! ### Facts about `isGoodTitle` -/

theorem isWS_toLower_eq {c : Char} (h : isWS c = true) : Char.toLower c = c := by
  have hm : c ∈ jsWhitespace := by simpa [isWS] using h
  fin_cases hm <;> decide

theorem not_isWS_of_toLower {x t : Char} (ht : Char.toLower x = t) (hwst : isWS t = false) :
    isWS x = false := by
  by_cases h : isWS x
  · rw [isWS_toLower_eq h] at ht
    subst ht
    rw [hwst] at h
    exact absurd h (by simp)
  · simpa using h

theorem collapseWSAux_of_no_ws (b : Bool) (l : List Char) (h : ∀ c ∈ l, isWS c = false) :
    collapseWSAux b l = l := by
  induction l generalizing b with
  | nil => rfl
  | cons c t ih =>
    have hc := h c (by simp)
    simp only [collapseWSAux, hc, Bool.false_eq_true, if_false]
    rw [ih false (fun x hx => h x (by simp [hx]))]

theorem dropWhile_eq_self_of_all {α : Type} (p : α → Bool) (l : List α)
    (h : ∀ c ∈ l, p c = false) : l.dropWhile p = l := by
  cases l with
  | nil => rfl
  | cons c t => rw [List.dropWhile_cons, if_neg (by simp [h c (by simp)])]

theorem normalizeText_of_no_ws {l : List Char} (h : ∀ c ∈ l, isWS c = false) :
    normalizeText l = l := by
  unfold normalizeText trimWS collapseWS
  rw [collapseWSAux_of_no_ws false l h, dropWhile_eq_self_of_all _ _ h,
    dropWhile_eq_self_of_all _ _ (fun c hc => h c (List.mem_reverse.mp hc)),
    List.reverse_reverse]

theorem isGoodTitle_false_of_norm_newchat {l : List Char}
    (h : lowerList (normalizeText l) = "new chat".toList) : isGoodTitle l = false := by
  have hlen : (normalizeText l).length = 8 := by
    have hc := congrArg List.length h
    simpa [lowerList] using hc
  simp only [isGoodTitle, hlen]
  norm_num
  simp only [matchesBoilerplate, h]
  decide

theorem isGoodTitle_false_of_norm_plan {l : List Char}
    (h : lowerList (normalizeText l) = "plan".toList) : isGoodTitle l = false := by
  have hlen : (normalizeText l).length = 4 := by
    have hc := congrArg List.length h
    simpa [lowerList] using hc
  simp only [isGoodTitle, hlen]
  norm_num
  simp only [matchesBoilerplate, h]
  decide

/-- Any letter casing of "New Chat" is rejected. -/
theorem isGoodTitle_false_lower_newchat {l : List Char}
    (h : lowerList l = "new chat".toList) : isGoodTitle l = false := by
  apply isGoodTitle_false_of_norm_newchat
  rw [show ("new chat".toList) = ['n', 'e', 'w', ' ', 'c', 'h', 'a', 't'] from by decide] at h
  unfold lowerList at h
  rw [List.map_eq_cons_iff] at h
  obtain ⟨x0, l, rfl, h0, h⟩ := h
  rw [List.map_eq_cons_iff] at h
  obtain ⟨x1, l, rfl, h1, h⟩ := h
  rw [List.map_eq_cons_iff] at h
  obtain ⟨x2, l, rfl, h2, h⟩ := h
  rw [List.map_eq_cons_iff] at h
  obtain ⟨x3, l, rfl, h3, h⟩ := h
  rw [List.map_eq_cons_iff] at h
  obtain ⟨x4, l, rfl, h4, h⟩ := h
  rw [List.map_eq_cons_iff] at h
  obtain ⟨x5, l, rfl, h5, h⟩ := h
  rw [List.map_eq_cons_iff] at h
  obtain ⟨x6, l, rfl, h6, h⟩ := h
  rw [List.map_eq_cons_iff] at h
  obtain ⟨x7, l, rfl, h7, h⟩ := h
  rw [List.map_eq_nil_iff] at h
  subst h
  have w0 : isWS x0 = false := not_isWS_of_toLower h0 (by decide)
  have w1 : isWS x1 = false := not_isWS_of_toLower h1 (by decide)
  have w2 : isWS x2 = false := not_isWS_of_toLower h2 (by decide)
  have w4 : isWS x4 = false := not_isWS_of_toLower h4 (by decide)
  have w5 : isWS x5 = false := not_isWS_of_toLower h5 (by decide)
  have w6 : isWS x6 = false := not_isWS_of_toLower h6 (by decide)
  have w7 : isWS x7 = false := not_isWS_of_toLower h7 (by decide)
  have hsp : Char.toLower ' ' = ' ' := by decide
  by_cases w3 : isWS x3
  · have hnorm : normalizeText [x0, x1, x2, x3, x4, x5, x6, x7]
        = [x0, x1, x2, ' ', x4, x5, x6, x7] := by
      unfold normalizeText collapseWS trimWS
      simp [collapseWSAux, w0, w1, w2, w3, w4, w5, w6, w7, List.dropWhile_cons,
        show isWS ' ' = true from by decide]
    rw [hnorm]
    unfold lowerList
    simp only [List.map_cons, List.map_nil, h0, h1, h2, h4, h5, h6, h7, hsp]
    decide
  · have hnorm : normalizeText [x0, x1, x2, x3, x4, x5, x6, x7] = [x0, x1, x2, x3, x4, x5, x6, x7] := by
      apply normalizeText_of_no_ws
      intro c hc
      simp only [List.mem_cons, List.not_mem_nil, or_false] at hc
      rcases hc with rfl | rfl | rfl | rfl | rfl | rfl | rfl | rfl
      · exact w0
      · exact w1
      · exact w2
      · simpa using w3
      · exact w4
      · exact w5
      · exact w6
      · exact w7
    rw [hnorm]
    unfold lowerList
    simp only [List.map_cons, List.map_nil, h0, h1, h2, h3, h4, h5, h6, h7]
    decide

/-- Any letter casing of "Plan" is rejected. -/
theorem isGoodTitle_false_lower_plan {l : List Char}
    (h : lowerList l = "plan".toList) : isGoodTitle l = false := by
  apply isGoodTitle_false_of_norm_plan
  rw [show ("plan".toList) = ['p', 'l', 'a', 'n'] from by decide] at h
  unfold lowerList at h
  rw [List.map_eq_cons_iff] at h
  obtain ⟨x0, l, rfl, h0, h⟩ := h
  rw [List.map_eq_cons_iff] at h
  obtain ⟨x1, l, rfl, h1, h⟩ := h
  rw [List.map_eq_cons_iff] at h
  obtain ⟨x2, l, rfl, h2, h⟩ := h
  rw [List.map_eq_cons_iff] at h
  obtain ⟨x3, l, rfl, h3, h⟩ := h
  rw [List.map_eq_nil_iff] at h
  subst h
  have w0 : isWS x0 = false := not_isWS_of_toLower h0 (by decide)
  have w1 : isWS x1 = false := not_isWS_of_toLower h1 (by decide)
  have w2 : isWS x2 = false := not_isWS_of_toLower h2 (by decide)
  have w3 : isWS x3 = false := not_isWS_of_toLower h3 (by decide)
  have hnorm : normalizeText [x0, x1, x2, x3] = [x0, x1, x2, x3] := by
    apply normalizeText_of_no_ws
    intro c hc
    simp only [List.mem_cons, List.not_mem_nil, or_false] at hc
    rcases hc with rfl | rfl | rfl | rfl
    · exact w0
    · exact w1
    · exact w2
    · exact w3
  rw [hnorm]
  unfold lowerList
  simp only [List.map_cons, List.map_nil, h0, h1, h2, h3]
  decide

/-- C6: the title validity filter accepts a string iff its normalization
(whitespace collapsed and trimmed) has length in [3, 80] and matches none of
the boilerplate regexes case-insensitively; strings normalizing to fewer than
3 or more than 80 characters are rejected, and every letter casing of
"New Chat" and of "Plan" is rejected. -/
theorem isGoodTitle_spec (l : List Char) :
    (isGoodTitle l = true ↔
      (3 ≤ (normalizeText l).length ∧ (normalizeText l).length ≤ 80 ∧
        matchesBoilerplate (normalizeText l) = false)) ∧
    ((normalizeText l).length < 3 ∨ 80 < (normalizeText l).length → isGoodTitle l = false) ∧
    (lowerList l = "new chat".toList → isGoodTitle l = false) ∧
    (lowerList l = "plan".toList → isGoodTitle l = false) := by
  refine ⟨?_, ?_, fun h => isGoodTitle_false_lower_newchat h,
    fun h => isGoodTitle_false_lower_plan h⟩
  · simp only [isGoodTitle]
    split_ifs with hc
    · refine iff_of_false (by simp) ?_
      rintro ⟨h1, h2, _⟩
      simp only [Bool.or_eq_true, decide_eq_true_eq] at hc
      omega
    · simp only [Bool.or_eq_true, decide_eq_true_eq, not_or, not_lt] at hc
      constructor
      · intro hm
        exact ⟨by omega, by omega, by simpa using hm⟩
      · rintro ⟨_, _, hm⟩
        simp [hm]
  · intro h
    simp only [isGoodTitle]
    split_ifs with hc
    · rfl
    · exfalso
      simp only [Bool.or_eq_true, decide_eq_true_eq, not_or, not_lt] at hc
      omega

/-- Witness for C6: the concrete input "New Chat" is rejected. -/
theorem isGoodTitle_spec_witness : isGoodTitle ("New Chat".toList) = false :=
  (isGoodTitle_spec ("New Chat".toList)).2.2.1 (by decide)

/-! ### Data model of the engine state

The registry `cascades` is a JavaScript `Map` keyed by the id string; it is
modelled as an association list in insertion order (a `Map` keeps the
original position when a key is overwritten and appends new keys). -/

/-- Entry metadata (src/server.js lines 487-494). -/
structure Meta where
  windowTitle : String
  chatTitle : String
  isActive : Bool
  app : String
  rootElementId : Option String
  rootSelector : String
deriving DecidableEq, Repr

/-- The fields of a successful metadata probe other than `found` and
`contextId` (the spread `const { found, contextId, ...rest } = meta`). -/
structure MetaVal where
  app : String
  rootElementId : Option String
  rootSelector : String
  chatTitle : String
  isActive : Bool
deriving DecidableEq, Repr

/-- CDP session state (`{ ws, call, contexts, rootContextId }`). `wsRef`
identifies the underlying WebSocket object and `wsOpen` models
`ws.readyState === WebSocket.OPEN`; `contexts` is the ordered list of known
execution-context ids. -/
structure Cdp where
  wsRef : Nat
  wsOpen : Bool
  rootContextId : Option Nat
  contexts : List Nat
deriving DecidableEq, Repr

/-- A captured snapshot (`captureHTML` result value; `title` is `none` when
the in-page script produced `null`). -/
structure Snap where
  html : String
  bodyBg : String
  bodyColor : String
  title : Option String
deriving DecidableEq, Repr

/-- A registry entry (`cascade`, src/server.js line 484). -/
structure Cascade where
  id : String
  cdp : Cdp
  metadata : Meta
  snapshot : Option Snap
  css : Option String
  snapshotHash : Option String
deriving DecidableEq, Repr

/-- Events fanned out to WebSocket subscribers (`broadcast` /
`broadcastCascadeList`). -/
inductive Event where
  | snapshotUpdate (cascadeId : String)
  | cascadeList
deriving DecidableEq, Repr

/-! ### updateSnapshots (src/server.js lines 523-543)

```js
const snap = await captureHTML(c.cdp, c.metadata);
if (snap) {
    const hash = hashString(snap.html);
    if (hash !== c.snapshotHash) {
        c.snapshot = snap;
        c.snapshotHash = hash;
        if (snap.title && snap.title !== c.metadata.chatTitle) {
            c.metadata.chatTitle = snap.title;
            broadcastCascadeList();
        }
        broadcast({ type: 'snapshot_update', cascadeId: c.id });
    }
}
```

The per-entry closure is modelled as a pure transition; the `captureHTML`
result is the oracle input (`none` models `null`).  `snap.title &&` is
JavaScript truthiness: the title must be present and non-empty. -/

def pollEntry (c : Cascade) (snap : Option Snap) : Cascade × List Event :=
  match snap with
  | none => (c, [])
  | some s =>
    let hash := strHash s.html
    if some hash ≠ c.snapshotHash then
      let c1 : Cascade := { c with snapshot := some s, snapshotHash := some hash }
      match s.title with
      | some t =>
        if t ≠ "" ∧ t ≠ c.metadata.chatTitle then
          ({ c1 with metadata := { c1.metadata with chatTitle := t } },
            [Event.cascadeList, Event.snapshotUpdate c.id])
        else (c1, [Event.snapshotUpdate c.id])
      | none => (c1, [Event.snapshotUpdate c.id])
    else (c, [])

theorem pollEntry_unchanged (c : Cascade) (s : Snap)
    (h : some (strHash s.html) = c.snapshotHash) : pollEntry c (some s) = (c, []) := by
  simp only [pollEntry]
  rw [if_neg (fun hn => hn h)]

theorem pollEntry_changed (c : Cascade) (s : Snap)
    (h : some (strHash s.html) ≠ c.snapshotHash) :
    (pollEntry c (some s)).1.snapshot = some s ∧
    (pollEntry c (some s)).1.snapshotHash = some (strHash s.html) ∧
    ((pollEntry c (some s)).2 = [Event.cascadeList, Event.snapshotUpdate c.id] ∨
      (pollEntry c (some s)).2 = [Event.snapshotUpdate c.id]) := by
  obtain ⟨html, bg, color, title⟩ := s
  simp only [pollEntry] at *
  rw [if_pos h]
  cases title with
  | none => exact ⟨rfl, rfl, Or.inr rfl⟩
  | some t =>
    dsimp only
    by_cases ht : t ≠ "" ∧ t ≠ c.metadata.chatTitle
    · rw [if_pos ht]
      exact ⟨rfl, rfl, Or.inl rfl⟩
    · rw [if_neg ht]
      exact ⟨rfl, rfl, Or.inr rfl⟩

/-- C3: a poll that captures HTML replaces the stored snapshot and hash and
emits a snapshot-changed event for the entry's id iff the hash of the new
HTML differs from the stored hash; a byte-identical capture (relative to the
stored snapshot and its stored hash) changes nothing and emits nothing; a
capture whose hash differs emits exactly one snapshot-changed event, and
only for this entry's id. -/
theorem pollEntry_change_detection (c : Cascade) (s : Snap) :
    (some (strHash s.html) ≠ c.snapshotHash ↔
      ((pollEntry c (some s)).1.snapshot = some s ∧
        (pollEntry c (some s)).1.snapshotHash = some (strHash s.html) ∧
        (pollEntry c (some s)).2.count (Event.snapshotUpdate c.id) = 1)) ∧
    (∀ s0 : Snap, c.snapshot = some s0 → c.snapshotHash = some (strHash s0.html) →
      s.html = s0.html →
      (pollEntry c (some s)).1 = c ∧ (pollEntry c (some s)).2 = []) ∧
    (some (strHash s.html) ≠ c.snapshotHash →
      (pollEntry c (some s)).2.count (Event.snapshotUpdate c.id) = 1 ∧
      ∀ i, Event.snapshotUpdate i ∈ (pollEntry c (some s)).2 → i = c.id) := by
  refine ⟨⟨fun h => ?_, fun h => ?_⟩, fun s0 h1 h2 h3 => ?_, fun h => ?_⟩
  · obtain ⟨e1, e2, e3⟩ := pollEntry_changed c s h
    refine ⟨e1, e2, ?_⟩
    rcases e3 with e3 | e3 <;> rw [e3] <;> simp [List.count_cons]
  · by_contra hcon
    rw [pollEntry_unchanged c s hcon] at h
    simp [List.count_nil] at h
  · have hsame : some (strHash s.html) = c.snapshotHash := by rw [h3, ← h2]
    rw [pollEntry_unchanged c s hsame]
    exact ⟨rfl, rfl⟩
  · obtain ⟨_, _, e3⟩ := pollEntry_changed c s h
    rcases e3 with e3 | e3 <;> rw [e3] <;>
      refine ⟨by simp [List.count_cons], ?_⟩ <;> intro i hi <;> simp at hi <;> tauto

/-- C10: when the captured hash differs and the snapshot carries a non-empty
title different from the stored chat title, the poll overwrites the entry's
`metadata.chatTitle` with the snapshot's title and emits a full list
broadcast in addition to the snapshot-changed event — so a snapshot poll,
not only discovery, can mutate metadata and trigger a list broadcast. -/
theorem pollEntry_title_overwrite (c : Cascade) (s : Snap) (t : String)
    (hh : some (strHash s.html) ≠ c.snapshotHash)
    (ht : s.title = some t) (hne : t ≠ "") (hnc : t ≠ c.metadata.chatTitle) :
    (pollEntry c (some s)).1.metadata.chatTitle = t ∧
    (pollEntry c (some s)).1.snapshot = some s ∧
    (pollEntry c (some s)).2 = [Event.cascadeList, Event.snapshotUpdate c.id] := by
  obtain ⟨html, bg, color, title⟩ := s
  simp only at ht
  subst ht
  simp only [pollEntry] at *
  rw [if_pos hh, if_pos ⟨hne, hnc⟩]
  exact ⟨rfl, rfl, rfl⟩

/-! Concrete sample values used by witness instantiations. -/

def sampleMeta : Meta :=
  { windowTitle := "workbench", chatTitle := "Fix bug", isActive := true,
    app := "antigravity", rootElementId := some "cascade", rootSelector := "#cascade" }

def sampleCdp : Cdp := { wsRef := 1, wsOpen := true, rootContextId := some 1, contexts := [1] }

def sampleCascade : Cascade :=
  { id := "c1", cdp := sampleCdp, metadata := sampleMeta,
    snapshot := none, css := some "", snapshotHash := none }

def sampleSnap : Snap :=
  { html := "<div>hello</div>", bodyBg := "black", bodyColor := "white",
    title := some "Fix a bug now" }

/-- Witness for C3: the changed-hash poll on concrete data emits exactly one
snapshot-changed event. -/
theorem pollEntry_change_detection_witness :
    (pollEntry sampleCascade (some sampleSnap)).2.count
      (Event.snapshotUpdate sampleCascade.id) = 1 :=
  ((pollEntry_change_detection sampleCascade sampleSnap).2.2 (by decide)).1

/-- Witness for C10 on concrete data. -/
theorem pollEntry_title_overwrite_witness :
    (pollEntry sampleCascade (some sampleSnap)).1.metadata.chatTitle = "Fix a bug now" ∧
    (pollEntry sampleCascade (some sampleSnap)).1.snapshot = some sampleSnap ∧
    (pollEntry sampleCascade (some sampleSnap)).2 =
      [Event.cascadeList, Event.snapshotUpdate sampleCascade.id] :=
  pollEntry_title_overwrite sampleCascade sampleSnap "Fix a bug now"
    (by decide) rfl (by decide) (by decide)

/-! ### The registry (`cascades` Map) -/

/-- The registry: an association list in insertion order (a JavaScript `Map`
keeps a key's original position when overwritten and appends new keys). -/
abbrev Registry := List (String × Cascade)

/-- `Map.prototype.get`. -/
def mapGet (m : Registry) (k : String) : Option Cascade :=
  match m with
  | [] => none
  | (k', v) :: rest => if k' = k then some v else mapGet rest k

/-- `Map.prototype.set`. -/
def mapSet (m : Registry) (k : String) (v : Cascade) : Registry :=
  match m with
  | [] => [(k, v)]
  | (k', v') :: rest => if k' = k then (k, v) :: rest else (k', v') :: mapSet rest k v

/-- `Map.prototype.has`. -/
def mapHas (m : Registry) (k : String) : Bool := (mapGet m k).isSome

/-! ### GET /snapshot (src/server.js lines 594-598)

```js
const active = Array.from(cascades.values()).find(c => c.metadata.isActive)
            || cascades.values().next().value;
if (!active || !active.snapshot) return res.status(503).json({ error: 'No snapshot' });
res.json(active.snapshot);
```
-/

inductive SnapResponse where
  | ok (s : Snap)
  | err503 (msg : String)
deriving DecidableEq, Repr

def snapshotEndpoint (reg : Registry) : SnapResponse :=
  let vals := reg.map Prod.snd
  match (vals.find? (fun c => c.metadata.isActive)).orElse (fun _ => vals.head?) with
  | none => .err503 "No snapshot"
  | some c =>
    match c.snapshot with
    | some s => .ok s
    | none => .err503 "No snapshot"

theorem find?_first {α : Type} (p : α → Bool) :
    ∀ (l : List α) (c : α), l.find? p = some c →
      p c = true ∧ ∃ l1 l2, l = l1 ++ c :: l2 ∧ ∀ y ∈ l1, p y = false := by
  intro l
  induction l with
  | nil => intro c h; simp [List.find?] at h
  | cons a t ih =>
    intro c h
    by_cases hpa : p a
    · rw [List.find?_cons_of_pos t hpa] at h
      cases h
      exact ⟨hpa, [], t, rfl, by simp⟩
    · rw [List.find?_cons_of_neg t (by simpa using hpa)] at h
      obtain ⟨hc, l1, l2, hsplit, hall⟩ := ih c h
      refine ⟨hc, a :: l1, l2, by rw [hsplit]; rfl, ?_⟩
      intro y hy
      rcases List.mem_cons.mp hy with rfl | hy
      · simpa using hpa
      · exact hall y hy

/-- C9: GET /snapshot serves the stored snapshot of the first registry entry
marked active, else of the first entry in insertion order, and responds 503
when no entry exists or the selected entry has no stored snapshot. -/
theorem snapshotEndpoint_spec (reg : Registry) :
    (reg = [] → snapshotEndpoint reg = .err503 "No snapshot") ∧
    (∀ c, (reg.map Prod.snd).find? (fun e => e.metadata.isActive) = some c →
      c.metadata.isActive = true ∧
      (∃ l1 l2, reg.map Prod.snd = l1 ++ c :: l2 ∧
        ∀ y ∈ l1, y.metadata.isActive = false) ∧
      snapshotEndpoint reg =
        (match c.snapshot with
          | some s => SnapResponse.ok s
          | none => SnapResponse.err503 "No snapshot")) ∧
    ((reg.map Prod.snd).find? (fun e => e.metadata.isActive) = none →
      ∀ e rest, reg = e :: rest →
        snapshotEndpoint reg =
          (match e.2.snapshot with
            | some s => SnapResponse.ok s
            | none => SnapResponse.err503 "No snapshot")) := by
  refine ⟨fun h => ?_, fun c hf => ?_, fun hf e rest h => ?_⟩
  · subst h; rfl
  · obtain ⟨hact, l1, l2, hsplit, hall⟩ := find?_first _ _ c hf
    refine ⟨by simpa using hact, ⟨l1, l2, hsplit, fun y hy => by simpa using hall y hy⟩, ?_⟩
    simp only [snapshotEndpoint]
    rw [hf]
    rfl
  · subst h
    simp only [snapshotEndpoint]
    rw [hf]
    rfl

/-- Witness for C9: empty registry yields 503. -/
theorem snapshotEndpoint_spec_witness : snapshotEndpoint [] = .err503 "No snapshot" :=
  (snapshotEndpoint_spec []).1 rfl

/-! ### POST /send/:id and injectMessage (src/server.js lines 600-618, 637-690)

```js
const c = cascades.get(req.params.id);
if (!c) return res.status(404).json({ error: 'Cascade not found' });
const result = await injectMessage(c.cdp, req.body.message);
if (result.ok) res.json({ success: true });
else res.status(500).json(result);
```

`injectMessage` evaluates the injection script and returns
`res.result?.value || { ok: false }`, or `{ ok: false, reason: e.message }`
when the call rejects — every path is caught. -/

/-- The `{ ok, reason? }` result value of a send operation. -/
structure SendVal where
  ok : Bool
  reason : Option String
deriving DecidableEq, Repr

/-- Outcome of the `Runtime.evaluate` call inside `injectMessage`: rejection
(the `catch` path), resolution with no usable value (`res.result?.value`
undefined), or resolution with a script value such as
`{ok:false, reason:"no editor found"}` or `{ok:true}`. -/
inductive InjectOutcome where
  | throws (msg : String)
  | noValue
  | value (v : SendVal)
deriving DecidableEq, Repr

/-- The fallible CDP call, before the `try`/`catch`. -/
def injectCall (o : InjectOutcome) : Except String (Option SendVal) :=
  match o with
  | .throws m => .error m
  | .noValue => .ok none
  | .value v => .ok (some v)

/-- `injectMessage`: total — the `catch` turns a rejection into
`{ ok:false, reason: e.message }`, and a missing value into `{ ok: false }`. -/
def injectMessage (o : InjectOutcome) : SendVal :=
  match injectCall o with
  | .error m => { ok := false, reason := some m }
  | .ok none => { ok := false, reason := none }
  | .ok (some v) => v

/-- HTTP responses of POST /send/:id. -/
inductive SendResponse where
  | notFound404 (msg : String)
  | ok200
  | err500 (v : SendVal)
deriving DecidableEq, Repr

def handleSend (reg : Registry) (id : String) (o : InjectOutcome) : SendResponse :=
  match mapGet reg id with
  | none => .notFound404 "Cascade not found"
  | some _ =>
    let result := injectMessage o
    if result.ok then .ok200 else .err500 result

/-- The handler with the exception automaton explicit: the only fallible step
is the CDP call, and `injectMessage` catches it, so the handler always
returns a response. -/
def handleSendE (reg : Registry) (id : String) (o : InjectOutcome) :
    Except String SendResponse :=
  match mapGet reg id with
  | none => .ok (.notFound404 "Cascade not found")
  | some _ =>
    let result : SendVal :=
      match injectCall o with
      | .error m => { ok := false, reason := some m }
      | .ok none => { ok := false, reason := none }
      | .ok (some v) => v
    .ok (if result.ok then .ok200 else .err500 result)

/-- C5 counterexample: a send to an id absent from the registry responds
HTTP 404 with error body "Cascade not found", which is not the result
`{ok:false, reason:"not found"}` stated by the claim. -/
theorem handleSend_missing_id_counterexample :
    handleSend [] "missing-id" InjectOutcome.noValue = .notFound404 "Cascade not found" ∧
    handleSend [] "missing-id" InjectOutcome.noValue ≠
      .err500 { ok := false, reason := some "not found" } := by
  exact ⟨rfl, by decide⟩

/-- C5 amended: a send whose id is not a registry key returns HTTP 404 with
error body "Cascade not found" (an explicit failure response, not the
`{ok:false, reason:"not found"}` value the spec scenario names); and no send
invocation escapes as an uncaught exception — with the id present the
response is 200 when the script value has `ok:true`, else 500 carrying the
`ok:false` result (missing editor, missing value, or evaluation error). -/
theorem handleSend_spec (reg : Registry) (id : String) (o : InjectOutcome) :
    (mapGet reg id = none → handleSend reg id o = .notFound404 "Cascade not found") ∧
    (∀ c, mapGet reg id = some c →
      ((injectMessage o).ok = true → handleSend reg id o = .ok200) ∧
      ((injectMessage o).ok = false → handleSend reg id o = .err500 (injectMessage o))) ∧
    handleSendE reg id o = .ok (handleSend reg id o) := by
  refine ⟨fun h => ?_, fun c hc => ⟨fun hok => ?_, fun hko => ?_⟩, ?_⟩
  · simp only [handleSend, h]
  · simp only [handleSend, hc, hok, if_true]
  · simp only [handleSend, hc, hko]
    rfl
  · cases hm : mapGet reg id <;> simp only [handleSend, handleSendE, injectMessage, hm]

/-- Witness for C5 (amended): concrete missing id yields the 404 response. -/
theorem handleSend_spec_witness :
    handleSend [] "missing-id" InjectOutcome.noValue = .notFound404 "Cascade not found" :=
  (handleSend_spec [] "missing-id" .noValue).1 rfl

/-! ### extractMetadata (src/server.js lines 198-216)

```js
if (cdp.rootContextId) {
    try {
        const res = await cdp.call("Runtime.evaluate", ...contextId: cdp.rootContextId);
        if (res.result?.value?.found) return { ...res.result.value, contextId: cdp.rootContextId };
    } catch (e) { cdp.rootContextId = null; } // reset if stale
}
for (const ctx of cdp.contexts) {
    try {
        const result = await cdp.call("Runtime.evaluate", ...contextId: ctx.id);
        if (result.result?.value?.found) return { ...result.result.value, contextId: ctx.id };
    } catch (e) { }
}
return null;
```

The probe of one execution context is the oracle: it either rejects
(`err`) or resolves with a value whose `found` flag and payload are given
(a missing `res.result?.value` behaves as not found). -/

inductive ProbeOutcome where
  | err
  | value (found : Bool) (payload : MetaVal)
deriving DecidableEq, Repr

def probeFound : ProbeOutcome → Bool
  | .value true _ => true
  | _ => false

/-- The fallback scan over `cdp.contexts`, in order. -/
def scanContexts (probe : Nat → ProbeOutcome) : List Nat → Option (MetaVal × Nat)
  | [] => none
  | x :: xs =>
    match probe x with
    | .value true m => some (m, x)
    | _ => scanContexts probe xs

def extractMetadata (st : Cdp) (probe : Nat → ProbeOutcome) : Cdp × Option (MetaVal × Nat) :=
  match st.rootContextId with
  | some c =>
    match probe c with
    | .value true m => (st, some (m, c))
    | .value false _ => (st, scanContexts probe st.contexts)
    | .err => ({ st with rootContextId := none }, scanContexts probe st.contexts)
  | none => (st, scanContexts probe st.contexts)

/-- `if (meta.contextId) cdp.rootContextId = meta.contextId` — how `discover`
caches the context id a successful extraction returns (a JavaScript
truthiness test, so id 0 would not be cached). -/
def cacheRootContext (st : Cdp) (x : Nat) : Cdp :=
  if x ≠ 0 then { st with rootContextId := some x } else st

theorem scanContexts_first (probe : Nat → ProbeOutcome) :
    ∀ (l : List Nat),
      (scanContexts probe l = none ↔ ∀ x ∈ l, probeFound (probe x) = false) ∧
      (∀ m x, scanContexts probe l = some (m, x) →
        probe x = .value true m ∧
        ∃ l1 l2, l = l1 ++ x :: l2 ∧ ∀ y ∈ l1, probeFound (probe y) = false) := by
  intro l
  induction l with
  | nil =>
    refine ⟨by simp [scanContexts], fun m x h => by simp [scanContexts] at h⟩
  | cons a t ih =>
    cases hp : probe a with
    | err =>
      have hred : scanContexts probe (a :: t) = scanContexts probe t := by
        simp only [scanContexts, hp]
      refine ⟨?_, fun m x h => ?_⟩
      · rw [hred, ih.1]
        constructor
        · intro hall x hx
          rcases List.mem_cons.mp hx with rfl | hx
          · simp [probeFound, hp]
          · exact hall x hx
        · intro hall x hx
          exact hall x (List.mem_cons_of_mem a hx)
      · rw [hred] at h
        obtain ⟨hpx, l1, l2, hsplit, hall⟩ := ih.2 m x h
        exact ⟨hpx, a :: l1, l2, by rw [hsplit]; rfl, fun y hy => by
          rcases List.mem_cons.mp hy with rfl | hy
          · simp [probeFound, hp]
          · exact hall y hy⟩
    | value f p =>
      cases f with
      | false =>
        have hred : scanContexts probe (a :: t) = scanContexts probe t := by
          simp only [scanContexts, hp]
        refine ⟨?_, fun m x h => ?_⟩
        · rw [hred, ih.1]
          constructor
          · intro hall x hx
            rcases List.mem_cons.mp hx with rfl | hx
            · simp [probeFound, hp]
            · exact hall x hx
          · intro hall x hx
            exact hall x (List.mem_cons_of_mem a hx)
        · rw [hred] at h
          obtain ⟨hpx, l1, l2, hsplit, hall⟩ := ih.2 m x h
          exact ⟨hpx, a :: l1, l2, by rw [hsplit]; rfl, fun y hy => by
            rcases List.mem_cons.mp hy with rfl | hy
            · simp [probeFound, hp]
            · exact hall y hy⟩
      | true =>
        have hred : scanContexts probe (a :: t) = some (p, a) := by
          simp only [scanContexts, hp]
        refine ⟨?_, fun m x h => ?_⟩
        · rw [hred]
          refine iff_of_false (by simp) ?_
          intro hall
          have := hall a (by simp)
          rw [hp] at this
          simp [probeFound] at this
        · rw [hred] at h
          obtain ⟨rfl, rfl⟩ : m = p ∧ x = a := by
            simpa using h.symm
          exact ⟨hp, [], t, rfl, by simp⟩

/-- C8: when the session holds a cached root context id, the cached context
is probed first and a found result returns immediately; a rejected cached
probe clears the cache and extraction falls back to scanning every known
context in order; the scan returns the first context whose probe reports
found (and `discover` then caches that context id); a not-found result
occurs only when no probe — the cached one included — reports found. -/
theorem extractMetadata_cached_probe (st : Cdp) (probe : Nat → ProbeOutcome) (c : Nat)
    (hc : st.rootContextId = some c) :
    (∀ m, probe c = .value true m → extractMetadata st probe = (st, some (m, c))) ∧
    (probe c = .err →
      (extractMetadata st probe).1 = { st with rootContextId := none } ∧
      (extractMetadata st probe).2 = scanContexts probe st.contexts) ∧
    (∀ p, probe c = .value false p →
      extractMetadata st probe = (st, scanContexts probe st.contexts)) ∧
    ((extractMetadata st probe).2 = none ↔
      probeFound (probe c) = false ∧ ∀ x ∈ st.contexts, probeFound (probe x) = false) ∧
    (∀ m x, probeFound (probe c) = false → (extractMetadata st probe).2 = some (m, x) →
      probe x = .value true m ∧
      (∃ l1 l2, st.contexts = l1 ++ x :: l2 ∧ ∀ y ∈ l1, probeFound (probe y) = false) ∧
      (x ≠ 0 → (cacheRootContext (extractMetadata st probe).1 x).rootContextId = some x)) := by
  have hred : extractMetadata st probe =
      (match probe c with
        | .value true m => (st, some (m, c))
        | .value false _ => (st, scanContexts probe st.contexts)
        | .err => ({ st with rootContextId := none }, scanContexts probe st.contexts)) := by
    simp only [extractMetadata, hc]
  refine ⟨fun m hm => ?_, fun he => ?_, fun p hp => ?_, ?_, fun m x hnf h => ?_⟩
  · rw [hred, hm]
  · rw [hred, he]
    exact ⟨rfl, rfl⟩
  · rw [hred, hp]
  · cases hp : probe c with
    | err =>
      rw [hred, hp]
      have := (scanContexts_first probe st.contexts).1
      simp only [this, probeFound]
      tauto
    | value f p =>
      cases f with
      | false =>
        rw [hred, hp]
        have := (scanContexts_first probe st.contexts).1
        simp only [this, probeFound]
        tauto
      | true =>
        rw [hred, hp]
        refine iff_of_false (by simp) ?_
        rintro ⟨hcf, _⟩
        simp [probeFound] at hcf
  · have hscan : (extractMetadata st probe).2 = scanContexts probe st.contexts := by
      cases hp : probe c with
      | err => rw [hred, hp]
      | value f p =>
        cases f with
        | false => rw [hred, hp]
        | true => rw [hp] at hnf; simp [probeFound] at hnf
    rw [hscan] at h
    obtain ⟨hpx, l1, l2, hsplit, hall⟩ := (scanContexts_first probe st.contexts).2 m x h
    refine ⟨hpx, ⟨l1, l2, hsplit, hall⟩, fun hx0 => ?_⟩
    simp [cacheRootContext, hx0]

/-- Sample metadata value for witness instantiations. -/
def sampleMetaVal : MetaVal :=
  { app := "antigravity", rootElementId := some "cascade", rootSelector := "#cascade",
    chatTitle := "Fix bug", isActive := true }

/-- Sample probe: context 1 reports found, everything else rejects. -/
def sampleProbe : Nat → ProbeOutcome :=
  fun x => if x = 1 then .value true sampleMetaVal else .err

/-- Witness for C8: the cached context (id 1) is found immediately. -/
theorem extractMetadata_cached_probe_witness :
    extractMetadata sampleCdp sampleProbe = (sampleCdp, some (sampleMetaVal, 1)) :=
  (extractMetadata_cached_probe sampleCdp sampleProbe 1 rfl).1 sampleMetaVal rfl

/-! ### discover (src/server.js lines 445-521)

One pass over the filtered candidate list `allTargets`.  For each candidate
(identity = `hashString(target.webSocketDebuggerUrl)`):

* if the old registry holds the identity and that entry's transport is open,
  refresh metadata in place (`extractMetadata` on the existing session) and
  keep the entry on success, falling through to a fresh connect on `null`;
* otherwise attempt `connectCDP` + `extractMetadata`, building a new entry on
  success and closing the new socket when identification returns `null`;
* afterwards close the transports of old entries whose identity is absent
  from the new map, swap the maps, and broadcast the list iff the *size*
  changed (`cascades.size !== newCascades.size`).

Remote interactions are oracle fields of the candidate.  Fresh sockets are
numbered from a counter so transports can be tracked; `closed` collects every
`ws.close()` performed during the pass.  (A `Runtime.enable` failure inside
`connectCDP` would also leak an opened socket; that path is folded into
`connectFail` here, as no claim depends on it.) -/

/-- Outcome of the fresh connect-and-identify sequence for a candidate. -/
inductive FreshResult where
  | connectFail
  | noMeta
  | found (m : MetaVal) (ctxId : Nat) (ctxs : List Nat) (css : Option String)
deriving DecidableEq, Repr

/-- One discovery candidate (a target that passed the workbench filter)
together with the oracle outcomes of the remote interactions it may trigger:
`refreshMeta` is the `extractMetadata` result on the existing open session
(used only on that path; `none` models `null`), `fresh` the fresh-connection
outcome. -/
structure Candidate where
  url : String
  title : String
  refreshMeta : Option (MetaVal × Nat)
  fresh : FreshResult
deriving DecidableEq, Repr

/-- `existing.metadata = { ...existing.metadata, ...rest }`. -/
def mergeMeta (old : Meta) (v : MetaVal) : Meta :=
  { old with
    chatTitle := v.chatTitle, isActive := v.isActive, app := v.app,
    rootElementId := v.rootElementId, rootSelector := v.rootSelector }

/-- The metadata of a freshly identified cascade (src/server.js 487-494). -/
def freshMeta (windowTitle : String) (v : MetaVal) : Meta :=
  { windowTitle := windowTitle, chatTitle := v.chatTitle, isActive := v.isActive,
    app := v.app, rootElementId := v.rootElementId, rootSelector := v.rootSelector }

/-- Refreshing an existing open entry in place (src/server.js 465-471). -/
def applyRefresh (ex : Cascade) (m : MetaVal) (ctx : Nat) : Cascade :=
  { ex with metadata := mergeMeta ex.metadata m, cdp := cacheRootContext ex.cdp ctx }

/-- Accumulator of a pass: the map being built, the sockets closed so far,
and the next fresh socket number. -/
structure PassState where
  newCascades : Registry
  closed : List Nat
  nextRef : Nat
deriving DecidableEq, Repr

/-- The fresh connect-and-identify attempt (`try { ... } catch`). -/
def tryFresh (ps : PassState) (id : String) (c : Candidate) : PassState :=
  match c.fresh with
  | .connectFail => ps
  | .noMeta =>
    { ps with closed := ps.closed ++ [ps.nextRef], nextRef := ps.nextRef + 1 }
  | .found m ctx ctxs css =>
    let cdp0 : Cdp := { wsRef := ps.nextRef, wsOpen := true, rootContextId := none,
                        contexts := ctxs }
    let casc : Cascade :=
      { id := id, cdp := cacheRootContext cdp0 ctx, metadata := freshMeta c.title m,
        snapshot := none, css := css, snapshotHash := none }
    { ps with newCascades := mapSet ps.newCascades id casc, nextRef := ps.nextRef + 1 }

/-- Processing of one candidate inside the pass loop. -/
def processCandidate (old : Registry) (ps : PassState) (c : Candidate) : PassState :=
  let id := strHash c.url
  match mapGet old id with
  | some ex =>
    if ex.cdp.wsOpen then
      match c.refreshMeta with
      | some (m, ctx) =>
        { ps with newCascades := mapSet ps.newCascades id (applyRefresh ex m ctx) }
      | none => tryFresh ps id c
    else tryFresh ps id c
  | none => tryFresh ps id c

structure DiscoverResult where
  registry : Registry
  closed : List Nat
  nextRef : Nat
  didBroadcast : Bool
deriving DecidableEq, Repr

/-- One full `discover` pass: build the new map, close the transports of
entries not reconfirmed, swap, and decide the broadcast by comparing sizes
(for registries built by this function the key list is duplicate-free, so
list length is `Map.size`). -/
def discover (old : Registry) (cands : List Candidate) (startRef : Nat) : DiscoverResult :=
  let ps := cands.foldl (processCandidate old)
    { newCascades := [], closed := [], nextRef := startRef }
  let torn := (old.filter (fun p => !(mapHas ps.newCascades p.1))).map
    (fun p => p.2.cdp.wsRef)
  { registry := ps.newCascades,
    closed := ps.closed ++ torn,
    nextRef := ps.nextRef,
    didBroadcast := decide (old.length ≠ ps.newCascades.length) }

/-- The fresh connect-and-identify attempt succeeds. -/
def freshFound (c : Candidate) : Bool :=
  match c.fresh with
  | .found _ _ _ _ => true
  | _ => false

/-- A candidate is successfully identified this pass: an existing
open-transport entry whose metadata refresh succeeded, or (every other path
attempts a fresh connect) a fresh connect whose metadata extraction returned
a result. -/
def identified (old : Registry) (c : Candidate) : Bool :=
  let refreshHit :=
    match mapGet old (strHash c.url) with
    | some ex => ex.cdp.wsOpen && c.refreshMeta.isSome
    | none => false
  refreshHit || freshFound c

/-! ### Facts about the registry operations -/

theorem mapGet_mapSet (m : Registry) (k k' : String) (v : Cascade) :
    mapGet (mapSet m k v) k' = if k = k' then some v else mapGet m k' := by
  induction m with
  | nil => simp only [mapSet, mapGet]
  | cons p rest ih =>
    obtain ⟨k0, v0⟩ := p
    by_cases h0 : k0 = k
    · subst h0
      simp only [mapSet, if_pos rfl, mapGet]
      by_cases hk : k0 = k'
      · subst hk; simp
      · simp [hk]
    · simp only [mapSet, if_neg h0, mapGet]
      by_cases hk : k0 = k'
      · subst hk
        rw [if_pos rfl, if_neg (fun h => h0 h.symm), if_pos rfl]
      · rw [if_neg hk, if_neg hk, ih]

theorem mapHas_mapSet (m : Registry) (k k' : String) (v : Cascade) :
    mapHas (mapSet m k v) k' = (decide (k = k') || mapHas m k') := by
  simp only [mapHas, mapGet_mapSet]
  by_cases h : k = k' <;> simp [h]

theorem mapGet_mem : ∀ (m : Registry) (k : String) (v : Cascade),
    mapGet m k = some v → (k, v) ∈ m := by
  intro m
  induction m with
  | nil => intro k v h; simp [mapGet] at h
  | cons p rest ih =>
    intro k v h
    obtain ⟨k0, v0⟩ := p
    simp only [mapGet] at h
    by_cases h0 : k0 = k
    · rw [if_pos h0] at h
      cases h
      subst h0
      exact List.mem_cons_self _ _
    · rw [if_neg h0] at h
      exact List.mem_cons_of_mem _ (ih k v h)

theorem mapHas_iff_mem_keys : ∀ (m : Registry) (k : String),
    mapHas m k = true ↔ k ∈ m.map Prod.fst := by
  intro m
  induction m with
  | nil => intro k; simp [mapHas, mapGet]
  | cons p rest ih =>
    intro k
    obtain ⟨k0, v0⟩ := p
    simp only [mapHas, mapGet, List.map_cons, List.mem_cons]
    by_cases h0 : k0 = k
    · subst h0; simp
    · rw [if_neg h0]
      have hrest := ih k
      simp only [mapHas] at hrest
      rw [hrest]
      constructor
      · exact Or.inr
      · rintro (h | h)
        · exact absurd h.symm h0
        · exact h

theorem mapSet_keys_mem (m : Registry) (k k' : String) (v : Cascade) :
    k' ∈ (mapSet m k v).map Prod.fst ↔ k' = k ∨ k' ∈ m.map Prod.fst := by
  rw [← mapHas_iff_mem_keys, mapHas_mapSet]
  simp only [Bool.or_eq_true, decide_eq_true_eq, mapHas_iff_mem_keys]
  constructor
  · rintro (h | h)
    · exact Or.inl h.symm
    · exact Or.inr h
  · rintro (h | h)
    · exact Or.inl h.symm
    · exact Or.inr h

theorem mapSet_keys_nodup : ∀ (m : Registry) (k : String) (v : Cascade),
    (m.map Prod.fst).Nodup → ((mapSet m k v).map Prod.fst).Nodup := by
  intro m
  induction m with
  | nil => intro k v _; simp [mapSet]
  | cons p rest ih =>
    intro k v h
    obtain ⟨k0, v0⟩ := p
    simp only [List.map_cons, List.nodup_cons] at h
    by_cases h0 : k0 = k
    · subst h0
      have hset : mapSet ((k0, v0) :: rest) k0 v = (k0, v) :: rest := by simp [mapSet]
      rw [hset]
      simp only [List.map_cons, List.nodup_cons]
      exact h
    · have hset : mapSet ((k0, v0) :: rest) k v = (k0, v0) :: mapSet rest k v := by
        simp [mapSet, h0]
      rw [hset]
      simp only [List.map_cons, List.nodup_cons]
      refine ⟨?_, ih k v h.2⟩
      rw [mapSet_keys_mem]
      rintro (rfl | hmem)
      · exact h0 rfl
      · exact h.1 hmem

/-! ### Invariants of one discovery pass -/

theorem tryFresh_newCascades (ps : PassState) (id : String) (c : Candidate) :
    (tryFresh ps id c).newCascades =
      (match c.fresh with
        | .found m ctx ctxs css =>
          mapSet ps.newCascades id
            { id := id,
              cdp := cacheRootContext
                { wsRef := ps.nextRef, wsOpen := true, rootContextId := none,
                  contexts := ctxs } ctx,
              metadata := freshMeta c.title m, snapshot := none, css := css,
              snapshotHash := none }
        | _ => ps.newCascades) := by
  obtain ⟨url, title, refreshMeta, fresh⟩ := c
  cases fresh <;> rfl

theorem tryFresh_closed_nextRef (ps : PassState) (id : String) (c : Candidate) :
    ((tryFresh ps id c).closed = ps.closed ∨
      (tryFresh ps id c).closed = ps.closed ++ [ps.nextRef]) ∧
    ps.nextRef ≤ (tryFresh ps id c).nextRef := by
  obtain ⟨url, title, refreshMeta, fresh⟩ := c
  cases fresh with
  | connectFail => exact ⟨Or.inl rfl, le_refl _⟩
  | noMeta => exact ⟨Or.inr rfl, Nat.le_succ _⟩
  | found m ctx ctxs css => exact ⟨Or.inl rfl, Nat.le_succ _⟩

theorem tryFresh_has (ps : PassState) (id : String) (c : Candidate) (k : String) :
    mapHas (tryFresh ps id c).newCascades k = true ↔
      (freshFound c = true ∧ id = k) ∨ mapHas ps.newCascades k = true := by
  obtain ⟨url, title, refreshMeta, fresh⟩ := c
  rw [tryFresh_newCascades]
  cases fresh with
  | connectFail => simp [freshFound]
  | noMeta => simp [freshFound]
  | found m ctx ctxs css => simp [freshFound, mapHas_mapSet]

theorem processCandidate_has (old : Registry) (ps : PassState) (c : Candidate) (k : String) :
    mapHas (processCandidate old ps c).newCascades k = true ↔
      (identified old c = true ∧ strHash c.url = k) ∨
        mapHas ps.newCascades k = true := by
  unfold processCandidate identified
  dsimp only
  cases hg : mapGet old (strHash c.url) with
  | none =>
    dsimp only
    rw [tryFresh_has]
    simp
  | some ex =>
    dsimp only
    by_cases hw : ex.cdp.wsOpen
    · cases hr : c.refreshMeta with
      | some pr =>
        obtain ⟨m, ctx⟩ := pr
        rw [if_pos hw]
        dsimp only
        simp [hw, mapHas_mapSet]
      | none =>
        rw [if_pos hw]
        dsimp only
        rw [tryFresh_has]
        simp [hw]
    · rw [if_neg hw]
      rw [tryFresh_has]
      simp only [Bool.not_eq_true] at hw
      simp [hw]

theorem foldl_process_has (old : Registry) :
    ∀ (cands : List Candidate) (ps : PassState) (k : String),
      mapHas (cands.foldl (processCandidate old) ps).newCascades k = true ↔
        mapHas ps.newCascades k = true ∨
          ∃ c ∈ cands, identified old c = true ∧ strHash c.url = k := by
  intro cands
  induction cands with
  | nil => intro ps k; simp
  | cons c cs ih =>
    intro ps k
    rw [List.foldl_cons, ih, processCandidate_has]
    constructor
    · rintro ((⟨hid, hk⟩ | h) | ⟨c', hc', hid', hk'⟩)
      · exact Or.inr ⟨c, List.mem_cons_self _ _, hid, hk⟩
      · exact Or.inl h
      · exact Or.inr ⟨c', List.mem_cons_of_mem _ hc', hid', hk'⟩
    · rintro (h | ⟨c', hc', hid', hk'⟩)
      · exact Or.inl (Or.inr h)
      · rcases List.mem_cons.mp hc' with rfl | hc'
        · exact Or.inl (Or.inl ⟨hid', hk'⟩)
        · exact Or.inr ⟨c', hc', hid', hk'⟩

theorem tryFresh_keys_nodup (ps : PassState) (id : String) (c : Candidate)
    (h : (ps.newCascades.map Prod.fst).Nodup) :
    (((tryFresh ps id c).newCascades).map Prod.fst).Nodup := by
  obtain ⟨url, title, refreshMeta, fresh⟩ := c
  rw [tryFresh_newCascades]
  cases fresh with
  | connectFail => exact h
  | noMeta => exact h
  | found m ctx ctxs css => exact mapSet_keys_nodup _ _ _ h

theorem processCandidate_keys_nodup (old : Registry) (ps : PassState) (c : Candidate)
    (h : (ps.newCascades.map Prod.fst).Nodup) :
    (((processCandidate old ps c).newCascades).map Prod.fst).Nodup := by
  unfold processCandidate
  dsimp only
  cases hg : mapGet old (strHash c.url) with
  | none => exact tryFresh_keys_nodup ps _ c h
  | some ex =>
    dsimp only
    by_cases hw : ex.cdp.wsOpen
    · cases hr : c.refreshMeta with
      | some pr =>
        obtain ⟨m, ctx⟩ := pr
        rw [if_pos hw]
        dsimp only
        exact mapSet_keys_nodup _ _ _ h
      | none =>
        rw [if_pos hw]
        dsimp only
        exact tryFresh_keys_nodup ps _ c h
    · rw [if_neg hw]
      exact tryFresh_keys_nodup ps _ c h

theorem foldl_process_keys_nodup (old : Registry) :
    ∀ (cands : List Candidate) (ps : PassState),
      (ps.newCascades.map Prod.fst).Nodup →
      ((cands.foldl (processCandidate old) ps).newCascades.map Prod.fst).Nodup := by
  intro cands
  induction cands with
  | nil => intro ps h; exact h
  | cons c cs ih =>
    intro ps h
    rw [List.foldl_cons]
    exact ih _ (processCandidate_keys_nodup old ps c h)

theorem processCandidate_closed (old : Registry) (ps : PassState) (c : Candidate) :
    ((processCandidate old ps c).closed = ps.closed ∨
      (processCandidate old ps c).closed = ps.closed ++ [ps.nextRef]) ∧
    ps.nextRef ≤ (processCandidate old ps c).nextRef := by
  unfold processCandidate
  dsimp only
  cases hg : mapGet old (strHash c.url) with
  | none => exact tryFresh_closed_nextRef ps _ c
  | some ex =>
    dsimp only
    by_cases hw : ex.cdp.wsOpen
    · cases hr : c.refreshMeta with
      | some pr =>
        obtain ⟨m, ctx⟩ := pr
        rw [if_pos hw]
        dsimp only
        exact ⟨Or.inl rfl, le_refl _⟩
      | none =>
        rw [if_pos hw]
        dsimp only
        exact tryFresh_closed_nextRef ps _ c
    · rw [if_neg hw]
      exact tryFresh_closed_nextRef ps _ c

theorem foldl_process_closed_ge (old : Registry) (b : Nat) :
    ∀ (cands : List Candidate) (ps : PassState),
      (∀ r ∈ ps.closed, b ≤ r) → b ≤ ps.nextRef →
      (∀ r ∈ (cands.foldl (processCandidate old) ps).closed, b ≤ r) ∧
        b ≤ (cands.foldl (processCandidate old) ps).nextRef := by
  intro cands
  induction cands with
  | nil => intro ps h1 h2; exact ⟨h1, h2⟩
  | cons c cs ih =>
    intro ps h1 h2
    rw [List.foldl_cons]
    obtain ⟨hcl, hctr⟩ := processCandidate_closed old ps c
    refine ih _ ?_ (le_trans h2 hctr)
    rcases hcl with hcl | hcl <;> rw [hcl]
    · exact h1
    · intro r hr
      rcases List.mem_append.mp hr with hr | hr
      · exact h1 r hr
      · simp only [List.mem_singleton] at hr
        subst hr
        exact h2

/-! ### The discovery-pass claims -/

/-- C1: after a pass, the registry key set equals exactly the set of
identities (`hashString` of the transport URL) of candidates successfully
identified this pass — no entry with another key remains, and no
successfully identified candidate is missing. -/
theorem discover_registry_keys (old : Registry) (cands : List Candidate) (startRef : Nat)
    (k : String) :
    mapHas (discover old cands startRef).registry k = true ↔
      ∃ c ∈ cands, identified old c = true ∧ strHash c.url = k := by
  simp only [discover]
  rw [foldl_process_has]
  simp [mapHas, mapGet]

/-- Concrete entry with an open transport (socket number 1) under the
identity of URL "u1". -/
def leakEntry : Cascade :=
  { id := strHash "u1",
    cdp := { wsRef := 1, wsOpen := true, rootContextId := some 1, contexts := [1] },
    metadata := sampleMeta, snapshot := none, css := some "", snapshotHash := none }

def leakOld : Registry := [(strHash "u1", leakEntry)]

/-- Candidate for the same URL "u1" whose refresh fails and whose fresh
connect identifies. -/
def leakCand : Candidate :=
  { url := "u1", title := "workbench", refreshMeta := none,
    fresh := .found sampleMetaVal 1 [1] (some "") }

/-- Candidate for a different URL "u2" that identifies fresh. -/
def switchCand : Candidate :=
  { url := "u2", title := "workbench", refreshMeta := none,
    fresh := .found sampleMetaVal 1 [1] (some "") }

/-- Witness for C1: the fresh-identified candidate's identity is a key of
the new registry. -/
theorem discover_registry_keys_witness :
    mapHas (discover [] [switchCand] 5).registry (strHash "u2") = true :=
  (discover_registry_keys [] [switchCand] 5 (strHash "u2")).mpr
    ⟨switchCand, by decide, by decide, rfl⟩

/-- C2 counterexample: a pass replaces the entry of identity
`hashString "u1"` (old open transport number 1, refresh failed, fresh
connect with socket number 5 identified) and closes nothing — the previous
open transport remains open alongside the new one. -/
theorem discover_replacement_leak_counterexample :
    leakEntry.cdp.wsOpen = true ∧
    mapGet leakOld (strHash "u1") = some leakEntry ∧
    Option.map (fun e => e.cdp.wsRef)
      (mapGet (discover leakOld [leakCand] 5).registry (strHash "u1")) = some 5 ∧
    Option.map (fun e => e.cdp.wsOpen)
      (mapGet (discover leakOld [leakCand] 5).registry (strHash "u1")) = some true ∧
    (discover leakOld [leakCand] 5).closed = [] := by
  decide

/-- C2 (amended): the registry maps each identity to at most one entry (its
key list is duplicate-free), and a pass closes the transport of every old
entry whose identity is dropped from the registry; but for an identity that
stays (entry reused *or replaced*), the old entry's transport is never
closed during the pass — in particular a replaced entry's previous open
transport is left open.  Hypotheses: fresh socket numbers (from `startRef`)
are new objects, and the old entries' socket numbers are pairwise
distinct. -/
theorem discover_transport_closure (old : Registry) (cands : List Candidate) (startRef : Nat)
    (hrefs : ∀ p ∈ old, p.2.cdp.wsRef < startRef)
    (hnodup : (old.map (fun p => p.2.cdp.wsRef)).Nodup) :
    ((discover old cands startRef).registry.map Prod.fst).Nodup ∧
    (∀ id ex, mapGet old id = some ex →
      mapHas (discover old cands startRef).registry id = false →
      ex.cdp.wsRef ∈ (discover old cands startRef).closed) ∧
    (∀ id ex ex', mapGet old id = some ex →
      mapGet (discover old cands startRef).registry id = some ex' →
      ex.cdp.wsRef ∉ (discover old cands startRef).closed) := by
  refine ⟨?_, ?_, ?_⟩
  · simp only [discover]
    exact foldl_process_keys_nodup old cands _ (by simp)
  · intro id ex hget hnot
    simp only [discover] at hnot ⊢
    apply List.mem_append.mpr
    right
    apply List.mem_map.mpr
    refine ⟨(id, ex), ?_, rfl⟩
    apply List.mem_filter.mpr
    exact ⟨mapGet_mem old id ex hget, by simp [hnot]⟩
  · intro id ex ex' hget hget' hmem
    simp only [discover] at hget' hmem
    rcases List.mem_append.mp hmem with hmem | hmem
    · have hb := (foldl_process_closed_ge old startRef cands ⟨[], [], startRef⟩
        (by simp) (le_refl _)).1 _ hmem
      have hlt := hrefs (id, ex) (mapGet_mem old id ex hget)
      simp only at hb hlt
      omega
    · obtain ⟨p, hpf, hpref⟩ := List.mem_map.mp hmem
      have hpmem := (List.mem_filter.mp hpf).1
      have hpkey := (List.mem_filter.mp hpf).2
      have hpe : p = (id, ex) :=
        List.inj_on_of_nodup_map hnodup hpmem (mapGet_mem old id ex hget) hpref
      rw [hpe] at hpkey
      have hhas : mapHas
          ((cands.foldl (processCandidate old) ⟨[], [], startRef⟩).newCascades) id = true := by
        simp [mapHas, hget']
      simp [hhas] at hpkey

/-- Witness for C2 (amended) at concrete data. -/
theorem discover_transport_closure_witness :
    ((discover leakOld [leakCand] 5).registry.map Prod.fst).Nodup :=
  (discover_transport_closure leakOld [leakCand] 5 (by decide) (by decide)).1

/-- C4 counterexample: replacing the single entry of identity
`hashString "u1"` by one of identity `hashString "u2"` changes the key set
but keeps the size, so no list broadcast is emitted. -/
theorem discover_broadcast_counterexample :
    (discover leakOld [switchCand] 5).didBroadcast = false ∧
    mapHas leakOld (strHash "u1") = true ∧
    mapHas (discover leakOld [switchCand] 5).registry (strHash "u1") = false ∧
    mapHas (discover leakOld [switchCand] 5).registry (strHash "u2") = true := by
  decide

/-- C4 (amended): a pass broadcasts the list iff the *number* of registry
entries changed (`cascades.size !== newCascades.size`), not the key set; a
pass with no candidates (all ports failed) empties the registry and
broadcasts iff the registry was previously non-empty; and a pass whose new
registry has exactly the old key set (metadata-only refresh) broadcasts
nothing. -/
theorem discover_broadcast_spec (old : Registry) (cands : List Candidate) (startRef : Nat) :
    ((discover old cands startRef).didBroadcast = true ↔
      old.length ≠ (discover old cands startRef).registry.length) ∧
    (cands = [] → ((discover old cands startRef).didBroadcast = true ↔ old ≠ [])) ∧
    ((old.map Prod.fst).Nodup →
      (∀ k, mapHas (discover old cands startRef).registry k = mapHas old k) →
      (discover old cands startRef).didBroadcast = false) := by
  refine ⟨?_, fun hc => ?_, fun hnodup hsame => ?_⟩
  · simp only [discover]
    exact decide_eq_true_iff
  · subst hc
    simp only [discover, List.foldl_nil]
    simp [List.length_eq_zero]
  · have hnew : (((cands.foldl (processCandidate old)
        ⟨[], [], startRef⟩).newCascades).map Prod.fst).Nodup :=
      foldl_process_keys_nodup old cands _ (by simp)
    simp only [discover] at hsame ⊢
    have hperm : (((cands.foldl (processCandidate old)
        ⟨[], [], startRef⟩).newCascades).map Prod.fst).Perm (old.map Prod.fst) :=
      (List.perm_ext_iff_of_nodup hnew hnodup).mpr (fun a => by
        rw [← mapHas_iff_mem_keys, ← mapHas_iff_mem_keys, hsame a])
    have hlen := hperm.length_eq
    simp only [List.length_map] at hlen
    simp [hlen]

/-- Witness for C4 (amended): the empty pass on a non-empty registry
broadcasts. -/
theorem discover_broadcast_spec_witness :
    (discover leakOld [] 5).didBroadcast = true :=
  ((discover_broadcast_spec leakOld [] 5).2.1 rfl).mpr (by decide)

end ShitChat
